import Mathlib

/-!
Shallow embedding of the `tv-rename` utility (fastily/tv-rename).

The embedding covers:

* `src/tv_rename/util.py` — `natural_sort`, `episodes_of`, `find_all_eps`,
  `VIDEO_EXTS`;
* `src/tv_rename/unmangle.py` — the `_main` reconciliation driver
  (`_counts_match`, the positional assignment loop, the id-keyed
  cross-reference, destination-name computation, rename execution);
* `src/tv_rename/multipart.py` — `EpisodeGroup.rename` and the `_main`
  multipart grouping loop.

Filesystem paths are modelled as lists of components (`FsPath`); machine
side effects (mkdir / rename) are modelled as an explicit list of
`FsAction`s; Python exceptions (IndexError / KeyError / AttributeError)
are modelled by `Option` / the `crash` result constructor.  Python dicts
are modelled as insertion-ordered association lists with in-place update
on key collision, matching CPython's documented dict semantics.
-/

set_option linter.unusedVariables false

namespace TvRename

/-- A filesystem path, as its list of components (`pathlib.Path` parts). -/
abbrev FsPath := List String

/-- The final component of a path (`Path.name`); empty for the empty path. -/
def pname (p : FsPath) : String := p.getLastD ""

/-- The parent path (`Path.parent`), dropping the final component. -/
def pparent (p : FsPath) : FsPath := p.dropLast

/-- Render a path as a string, components joined by `/` (`str(path)`). -/
def pstr (p : FsPath) : String := String.intercalate "/" p

/-- Index of the last `.` in a list of characters, if any (Python `str.rfind`). -/
def lastDotIdx (cs : List Char) : Option Nat :=
  (cs.enum.filter (fun ci => ci.2 = '.')).getLast?.map (·.1)

/-- The extension of the final path component (`Path.suffix`): the final
component from its last dot on, provided that dot is neither the first nor
the last character of the component; otherwise the empty string. -/
def psuffix (p : FsPath) : String :=
  let n := pname p
  match lastDotIdx n.data with
  | none => ""
  | some i => if 0 < i ∧ i < n.length - 1 then String.mk (n.data.drop i) else ""

/-- Lower-case a string character by character (Python `str.lower`). -/
def strLower (s : String) : String := String.mk (s.data.map Char.toLower)

/-- Zero-pad a natural number to (at least) two digits (Python `f"{n:02}"`). -/
def pad2 (n : Nat) : String := if n < 10 then "0" ++ toString n else toString n

/-- The default extension set `VIDEO_EXTS = {".mkv", ".mp4", ".avi"}` from
`util.py`. -/
def VIDEO_EXTS : List String := [".mkv", ".mp4", ".avi"]

/-- Raw episode json from TheTVDB, restricted to the fields the program
reads (`id`, `name`, `number`, `absoluteNumber`, `seasonNumber`). -/
structure RawEpisode where
  id : Nat
  name : String
  number : Nat
  absoluteNumber : Nat
  seasonNumber : Nat
  deriving DecidableEq, Repr

/-- The `Episode` class of `unmangle.py` / `util.py` (sans the mutable
`local_path` field, which the embedding threads explicitly as an
`Option FsPath` alongside the episode). -/
structure Episode where
  id : Nat
  name : String
  episode_number : Nat
  absolute_number : Nat
  season_number : Nat
  deriving DecidableEq, Repr

/-- `episodes_of` / `_episodes_of`: build `Episode`s from the raw records,
keeping only those whose `seasonNumber` is truthy (non-zero).  The remote
query itself is out of scope; the function takes the raw record list. -/
def episodes_of (raw : List RawEpisode) : List Episode :=
  (raw.filter (fun e => e.seasonNumber ≠ 0)).map
    (fun e => ⟨e.id, e.name, e.number, e.absoluteNumber, e.seasonNumber⟩)

/-! ## Python dict model

CPython dicts preserve insertion order; re-assigning an existing key
updates the value in place, keeping the key's original position. -/

/-- Insert `(k, v)` into an insertion-ordered association list with
CPython dict update semantics. -/
def dinsert {α : Type} (d : List (Nat × α)) (k : Nat) (v : α) : List (Nat × α) :=
  match d with
  | [] => [(k, v)]
  | (k', v') :: rest => if k' = k then (k, v) :: rest else (k', v') :: dinsert rest k v

/-- Build a dict from a list of key/value pairs, in order (a Python dict
comprehension such as `{e.id: e for e in el}`). -/
def dictOf {α : Type} (l : List (Nat × α)) : List (Nat × α) :=
  l.foldl (fun d p => dinsert d p.1 p.2) []

/-- Dict lookup (`d.get(k)` / `d[k]` with `none` modelling a `KeyError`). -/
def dget {α : Type} (d : List (Nat × α)) (k : Nat) : Option α :=
  match d with
  | [] => none
  | (k', v) :: rest => if k' = k then some v else dget rest k

/-! ## unmangle.py reconciliation driver -/

/-- An `Episode` together with its (optional) assigned `local_path`. -/
abbrev AssignedEp := Episode × Option FsPath

/-- A filesystem mutation performed by the program. -/
inductive FsAction where
  | mkdir (p : FsPath)
  | rename (src dst : FsPath)
  deriving DecidableEq, Repr

/-- Outcome of a run of `unmangle._main`'s core:
`mismatch` models the early `return` after a failed `_counts_match` check,
`crash` models an uncaught Python exception (with the mutations already
performed), `ok` carries the computed plan (logged source/destination
pairs, in order) and the mutations performed. -/
inductive RunResult where
  | mismatch : RunResult
  | crash : List FsAction → RunResult
  | ok : List (FsPath × FsPath) → List FsAction → RunResult
  deriving DecidableEq, Repr

/-- The computed plan of a run, when it completed normally. -/
def planOf : RunResult → Option (List (FsPath × FsPath))
  | .ok plan _ => some plan
  | _ => none

/-- The filesystem mutations of a run. -/
def actionsOf : RunResult → List FsAction
  | .ok _ acts => acts
  | .crash acts => acts
  | .mismatch => []

/-- The positional assignment loop
`for i, p in enumerate(pl): el[i].local_path = p`.
When there are more paths than episodes the loop raises `IndexError` at
`el[len(el)]`, modelled as `none`; otherwise every path is assigned to the
episode at the same index and surplus episodes keep `local_path = None`. -/
def assignPaths (el : List Episode) (pl : List FsPath) : Option (List AssignedEp) :=
  if el.length < pl.length then none
  else some (el.zip (pl.map some ++ List.replicate (el.length - pl.length) none))

/-- Destination of one aired episode (`unmangle.py` line 130):
`root_dir / f"Season {sn}" / f"s{sn:02}e{ep:02} --- {local_path.name}"`. -/
def destName (root : FsPath) (a : Episode) (src : FsPath) : FsPath :=
  root ++ ["Season " ++ toString a.season_number,
           "s" ++ pad2 a.season_number ++ "e" ++ pad2 a.episode_number
             ++ " --- " ++ pname src]

/-- The final loop of `unmangle._main` over `id_to_aired.items()`:
look up each aired id in `id_to_alt`; a missing id is logged and skipped;
a found episode whose `local_path` is unset raises `AttributeError`
(`crash`); otherwise the source/destination pair joins the plan and, when
not a dry run, the rename is executed. -/
def renameLoop (dry : Bool) (root : FsPath) (altd : List (Nat × AssignedEp)) :
    List (Nat × Episode) → RunResult
  | [] => .ok [] []
  | (i, a) :: rest =>
    match dget altd i with
    | none => renameLoop dry root altd rest
    | some (_, none) => .crash []
    | some (_, some p) =>
      let nn := destName root a p
      let act : List FsAction := if dry then [] else [.rename p nn]
      match renameLoop dry root altd rest with
      | .mismatch => .mismatch
      | .crash acts => .crash (act ++ acts)
      | .ok plan acts => .ok ((p, nn) :: plan) (act ++ acts)

/-- Prepend already-performed mutations to a run result. -/
def withActs (pre : List FsAction) : RunResult → RunResult
  | .mismatch => .mismatch
  | .crash acts => .crash (pre ++ acts)
  | .ok plan acts => .ok plan (pre ++ acts)

/-- The distinct season numbers of the aired dict's values, first
occurrence first (`{e.season_number for e in id_to_aired.values()}`;
CPython's set iteration order for ints is unspecified, and no property
proved below depends on the order chosen here). -/
def seasonsOf (airedd : List (Nat × Episode)) : List Nat :=
  (airedd.map (fun kv => kv.2.season_number)).eraseDups

/-- The core of `unmangle._main` after CLI parsing and the remote queries:
`pl` is the sorted local file list, `el` the alternate-order episode list,
`aired` the aired-order episode list; `dry` is `-s`, `ignore` is `-i`.
Follows lines 109–134 of `unmangle.py` step for step. -/
def unmangleRun (dry ignore : Bool) (root : FsPath)
    (pl : List FsPath) (el aired : List Episode) : RunResult :=
  if ¬(pl.length = el.length) ∧ ¬ignore then .mismatch
  else
    match assignPaths el pl with
    | none => .crash []
    | some ael =>
      let altd := dictOf (ael.map (fun ae => (ae.1.id, ae)))
      let airedd := dictOf (aired.map (fun e => (e.id, e)))
      if ¬(airedd.length = altd.length) ∧ ¬ignore then .mismatch
      else
        let pre : List FsAction :=
          if dry then []
          else (seasonsOf airedd).map
            (fun n => .mkdir (root ++ ["Season " ++ toString n]))
        withActs pre (renameLoop dry root altd airedd)

/-! ## multipart.py -/

/-- The `EpisodeGroup` class of `multipart.py`. -/
structure EpisodeGroup where
  p : FsPath
  group_season : Nat
  mapped_eps : List Nat
  deriving DecidableEq, Repr

/-- The episode-range part of `EpisodeGroup.rename` (line 37):
`f"{eps[0]:02}"` for a single mapped episode, otherwise
`f"{min(eps):02}-e{max(eps):02}"`; `none` models the `ValueError` that
`min([])` would raise (groups are in fact always created non-empty). -/
def groupEps (l : List Nat) : Option String :=
  if l.length = 1 then some (pad2 (l.headD 0))
  else
    match l with
    | [] => none
    | x :: xs =>
      some (pad2 (xs.foldl Nat.min x) ++ "-e" ++ pad2 (xs.foldl Nat.max x))

/-- The destination computed by `EpisodeGroup.rename` (line 38):
`p.parent / f"{p.parent.parent.name} - s{group_season:02}e{eps}{p.suffix}"`. -/
def groupNewName (g : EpisodeGroup) : Option FsPath :=
  (groupEps g.mapped_eps).map fun eps =>
    pparent g.p ++ [pname (pparent (pparent g.p)) ++ " - s"
      ++ pad2 g.group_season ++ "e" ++ eps ++ psuffix g.p]

/-- Record the aired episode number `n` against path `curr` in the
insertion-ordered `path_to_eps` dict: append to an existing group's
`mapped_eps`, or create a new singleton group at the end. -/
def groupAdd (acc : List EpisodeGroup) (curr : FsPath) (sn : Nat) (n : Nat) :
    List EpisodeGroup :=
  match acc with
  | [] => [⟨curr, sn, [n]⟩]
  | g :: rest =>
    if g.p = curr then ⟨g.p, g.group_season, g.mapped_eps ++ [n]⟩ :: rest
    else g :: groupAdd rest curr sn n

/-- The grouping loop of `multipart._main` (lines 81–91), with explicit
state `(ep_num, sn_num, pl_index)` and the accumulated `path_to_eps`
groups.  `none` models the `KeyError` from `id_to_aired[e.id]` or the
`IndexError` from `pl[pl_index]`. -/
def multipartLoop (pl : List FsPath) (airedd : List (Nat × Episode)) :
    Nat → Nat → Nat → List EpisodeGroup → List Episode → Option (List EpisodeGroup)
  | _, _, _, acc, [] => some acc
  | ep, sn, idx, acc, e :: rest =>
    let adv : Bool := e.episode_number ≠ ep ∨ e.season_number ≠ sn
    let ep' := if adv then e.episode_number else ep
    let sn' := if adv then e.season_number else sn
    let idx' := if adv then idx + 1 else idx
    match dget airedd e.id with
    | none => none
    | some ae =>
      match pl[idx']? with
      | none => none
      | some curr =>
        multipartLoop pl airedd ep' sn' idx'
          (groupAdd acc curr sn' ae.episode_number) rest

/-- The full grouping pass of `multipart._main`: the state starts at
`ep_num = 1`, `sn_num = 1`, `pl_index = 0` with no groups. -/
def multipartGroups (pl : List FsPath) (aired : List Episode)
    (alt : List Episode) : Option (List EpisodeGroup) :=
  multipartLoop pl (dictOf (aired.map (fun e => (e.id, e)))) 1 1 0 [] alt

/-- Modelled from the spec (§4.5): the spec-side description of the file
assignment — walk the alt-order sequence, advancing to the next file index
exactly when the `(episode_number, season_number)` pair differs from the
previous entry's pair, and tag each entry with its file index. -/
def assignIndices (p : Nat × Nat) (i : Nat) : List Episode → List (Nat × Episode)
  | [] => []
  | e :: rest =>
    let i' := if (e.episode_number, e.season_number) = p then i else i + 1
    (i', e) :: assignIndices (e.episode_number, e.season_number) i' rest

/-- Process a list of entries already tagged with their file indices:
cross-reference each entry's id in the aired dict and record the aired
episode number against the file at its tagged index. -/
def applyAssigned (pl : List FsPath) (airedd : List (Nat × Episode))
    (acc : List EpisodeGroup) : List (Nat × Episode) → Option (List EpisodeGroup)
  | [] => some acc
  | (i, e) :: rest =>
    match dget airedd e.id with
    | none => none
    | some ae =>
      match pl[i]? with
      | none => none
      | some curr =>
        applyAssigned pl airedd
          (groupAdd acc curr e.season_number ae.episode_number) rest

/-- Number of `(episode_number, season_number)` pair changes along an
alt-order walk starting from previous pair `p` — i.e. the total number of
times the grouping loop advances its file index. -/
def pairChanges (p : Nat × Nat) : List Episode → Nat
  | [] => 0
  | e :: rest =>
    (if (e.episode_number, e.season_number) ≠ p then 1 else 0)
      + pairChanges (e.episode_number, e.season_number) rest

/-! ## util.py: natural_sort and find_all_eps -/

/-- One element of a `natural_sort` key: an integer (from a maximal digit
run) or a lower-cased text run. -/
inductive Tok where
  | num (n : Nat)
  | str (s : String)
  deriving DecidableEq, Repr

/-- Group a character list into maximal runs tagged by `Char.isDigit`. -/
def charRuns : List Char → List (Bool × List Char)
  | [] => []
  | c :: cs =>
    match charRuns cs with
    | (b, run) :: rest =>
      if c.isDigit = b then (b, c :: run) :: rest
      else (c.isDigit, [c]) :: (b, run) :: rest
    | [] => [(c.isDigit, [c])]

/-- Numeric value of a digit run (Python `int` of the matched group). -/
def digitsToNat (cs : List Char) : Nat :=
  cs.foldl (fun n c => n * 10 + (c.toNat - 48)) 0

/-- Assemble `re.split(r'(\d+)', s)` tokens from the run list: the split
keeps the digit groups and yields (possibly empty) text pieces between,
before and after them.  `prevText` records whether the previous emitted
token was a text piece. -/
def toksWalk : Bool → List (Bool × List Char) → List Tok
  | prevText, [] => if prevText then [] else [.str ""]
  | _, (false, t) :: rest => .str (String.mk (t.map Char.toLower)) :: toksWalk true rest
  | prevText, (true, d) :: rest =>
    (if prevText then [] else [.str ""]) ++ (Tok.num (digitsToNat d) :: toksWalk false rest)

/-- `natural_sort` (util.py lines 114–123): the comparison key of a path,
`[int(t) if t.isdigit() else t.lower() for t in re.split(r'(\d+)', str(s))]`. -/
def natural_sort (p : FsPath) : List Tok :=
  toksWalk false (charRuns (pstr p).data)

/-- Compare two key elements the way Python compares list elements:
ints numerically, strings lexicographically by code point; comparing an
int with a string raises `TypeError`, modelled as `none`. -/
def tokCmp : Tok → Tok → Option Ordering
  | .num a, .num b => some (compare a b)
  | .str a, .str b => some (compare a b)
  | _, _ => none

/-- Python list comparison on keys: element-wise, first difference wins,
a strict prefix compares less; errors propagate. -/
def keyCmp : List Tok → List Tok → Option Ordering
  | [], [] => some .eq
  | [], _ :: _ => some .lt
  | _ :: _, [] => some .gt
  | a :: as, b :: bs =>
    match tokCmp a b with
    | none => none
    | some .eq => keyCmp as bs
    | some o => some o

/-- Insert into a sorted list, stably, with a fallible comparator:
the element goes before the first element it does not compare greater
than (the placement `sorted` gives equal keys). -/
def oinsert {α : Type} (cmp : α → α → Option Ordering) (x : α) :
    List α → Option (List α)
  | [] => some [x]
  | y :: ys =>
    match cmp x y with
    | none => none
    | some .gt => (oinsert cmp x ys).map (y :: ·)
    | some _ => some (x :: y :: ys)

/-- Stable sort with a fallible comparator, modelling Python `sorted`
(which raises as soon as it compares an incomparable pair; the exact
comparison schedule differs from Timsort's, but on inputs whose keys are
pairwise comparable — all inputs arising here — both succeed and agree). -/
def osort {α : Type} (cmp : α → α → Option Ordering) : List α → Option (List α)
  | [] => some []
  | x :: xs => (osort cmp xs).bind (oinsert cmp x)

/-- Comparator used by `sorted(..., key=None)` on paths: `pathlib` orders
paths by their rendered strings (code-point lexicographic on POSIX). -/
def lexPathCmp (a b : FsPath) : Option Ordering :=
  some (compare (pstr a) (pstr b))

/-- Comparator used by `sorted(..., key=natural_sort)`. -/
def natPathCmp (a b : FsPath) : Option Ordering :=
  keyCmp (natural_sort a) (natural_sort b)

/-- `find_all_eps` (util.py lines 99–111), with the directory walk
abstracted to the candidate file list `files` (the paths `root_dir`'s
`glob("*/*")` yields that are regular files): keep the paths whose suffix,
lower-cased, is in the extension set (`{ext}` if an override is given,
else `VIDEO_EXTS`), and sort with `key=None if lex_sort else natural_sort`.
The defaults mirror the Python signature: `lex_sort: bool = True`,
`ext: str = None`. -/
def find_all_eps (files : List FsPath) (lex_sort : Bool := true)
    (ext : Option String := none) : Option (List FsPath) :=
  let exts := match ext with | some e => [e] | none => VIDEO_EXTS
  let kept := files.filter (fun p => strLower (psuffix p) ∈ exts)
  osort (if lex_sort then lexPathCmp else natPathCmp) kept

/-- The `local_path` stored in `altd` under key `k` (junk if absent or
unset; used only where presence is separately established). -/
def lookupPath (altd : List (Nat × AssignedEp)) (k : Nat) : FsPath :=
  match dget altd k with
  | some (_, some p) => p
  | _ => []

/-- The id-keyed alternate-order dict contents after positional
assignment, as a plain association list. -/
def mkAltList (es : List Episode) (ps : List FsPath) : List (Nat × AssignedEp) :=
  (es.zip (ps.map some)).map (fun ae => (ae.1.id, ae))

/-! ## Concrete data used by witnesses and counterexamples -/

namespace Ex

/-- Alternate-order entry `(s1e1, id=A)`. -/
def epA : Episode := ⟨10, "A", 1, 0, 1⟩

/-- Alternate-order entry `(s1e1, id=B)`. -/
def epB : Episode := ⟨20, "B", 1, 0, 1⟩

/-- Alternate-order entry `(s1e2, id=C)`. -/
def epC : Episode := ⟨30, "C", 2, 0, 1⟩

/-- Alternate-order entry `(s1e3, id=D)`. -/
def epD : Episode := ⟨40, "D", 3, 0, 1⟩

/-- Aired-order entry with id `A` and aired number 1. -/
def airedA : Episode := ⟨10, "A", 1, 0, 1⟩

/-- Aired-order entry with id `B` and aired number 2. -/
def airedB : Episode := ⟨20, "B", 2, 0, 1⟩

/-- Aired-order entry with id `C` and aired number 3. -/
def airedC : Episode := ⟨30, "C", 3, 0, 1⟩

/-- A local file. -/
def fX : FsPath := ["show", "Season 1", "fileX.mkv"]

/-- Another local file. -/
def fY : FsPath := ["show", "Season 1", "fileY.mkv"]

/-- A root directory whose label is `MyShow`. -/
def root : FsPath := ["MyShow"]

/-- A file whose name embeds the number 2. -/
def e2 : FsPath := ["Show", "Season 1", "Episode 2.mkv"]

/-- A file whose name embeds the number 10. -/
def e10 : FsPath := ["Show", "Season 1", "Episode 10.mkv"]

/-- Local files under `root`. -/
def pfile (i : Nat) : FsPath := ["MyShow", "dvd1", "x" ++ toString i ++ ".mkv"]

end Ex

end TvRename

namespace TvRename

/-! ## Association-list (Python dict) lemmas -/

theorem dinsert_of_not_mem {α : Type} (d : List (Nat × α)) (k : Nat) (v : α)
    (h : k ∉ d.map Prod.fst) : dinsert d k v = d ++ [(k, v)] := by
  induction d with
  | nil => rfl
  | cons x rest ih =>
    obtain ⟨k', v'⟩ := x
    simp only [List.map_cons, List.mem_cons] at h
    push_neg at h
    simp [dinsert, Ne.symm h.1, ih h.2]

theorem foldl_dinsert_eq {α : Type} (l acc : List (Nat × α))
    (h : (acc.map Prod.fst ++ l.map Prod.fst).Nodup) :
    l.foldl (fun d p => dinsert d p.1 p.2) acc = acc ++ l := by
  induction l generalizing acc with
  | nil => simp
  | cons x rest ih =>
    obtain ⟨k, v⟩ := x
    have hdisj := (List.nodup_append.mp h).2.2
    have hk : k ∉ acc.map Prod.fst := by
      intro hmem
      exact hdisj hmem (by simp)
    rw [List.foldl_cons]
    show List.foldl (fun d p => dinsert d p.1 p.2) (dinsert acc k v) rest = _
    rw [dinsert_of_not_mem _ _ _ hk, ih]
    · simp
    · simpa using h

theorem dictOf_eq_self {α : Type} (l : List (Nat × α))
    (h : (l.map Prod.fst).Nodup) : dictOf l = l := by
  simpa using foldl_dinsert_eq l [] (by simpa using h)

theorem mkAltList_keys (es : List Episode) (ps : List FsPath)
    (hlen : ps.length = es.length) :
    (mkAltList es ps).map Prod.fst = es.map Episode.id := by
  unfold mkAltList
  rw [List.map_map]
  have : (Prod.fst ∘ fun ae : AssignedEp => (ae.1.id, ae)) =
      (fun ae : AssignedEp => ae.1.id) := rfl
  rw [this]
  have h2 : (fun ae : AssignedEp => ae.1.id) =
      (Episode.id ∘ Prod.fst) := rfl
  rw [h2, ← List.map_map]
  rw [List.map_fst_zip]
  simp [hlen]

theorem dget_mkAltList_mem (es : List Episode) (ps : List FsPath)
    (hlen : es.length = ps.length) (k : Nat) (hk : k ∈ es.map Episode.id) :
    ∃ ep pa, dget (mkAltList es ps) k = some (ep, some pa) := by
  induction es generalizing ps with
  | nil => simp at hk
  | cons e es ih =>
    cases ps with
    | nil => simp at hlen
    | cons p ps =>
      by_cases hek : e.id = k
      · exact ⟨e, p, by simp [mkAltList, dget, hek]⟩
      · have hk' : k ∈ es.map Episode.id := by
          rcases (by simpa using hk : k = e.id ∨ ∃ a ∈ es, a.id = k) with h | ⟨a, ha, hak⟩
          · exact absurd h.symm hek
          · exact List.mem_map.mpr ⟨a, ha, hak⟩
        obtain ⟨ep, pa, hg⟩ := ih ps (by simpa using hlen) hk'
        exact ⟨ep, pa, by simpa [mkAltList, dget, hek] using hg⟩

theorem map_lookupPath_mkAltList (es : List Episode) (ps : List FsPath)
    (hlen : es.length = ps.length) (hnd : (es.map Episode.id).Nodup) :
    (es.map Episode.id).map (lookupPath (mkAltList es ps)) = ps := by
  induction es generalizing ps with
  | nil =>
    cases ps with
    | nil => rfl
    | cons p ps => simp at hlen
  | cons e es ih =>
    cases ps with
    | nil => simp at hlen
    | cons p ps =>
      have hnd' : (es.map Episode.id).Nodup := (List.nodup_cons.mp (by simpa using hnd)).2
      have hne : e.id ∉ es.map Episode.id := (List.nodup_cons.mp (by simpa using hnd)).1
      simp only [List.map_cons]
      have hhead : lookupPath (mkAltList (e :: es) (p :: ps)) e.id = p := by
        simp [mkAltList, lookupPath, dget]
      have htail : (es.map Episode.id).map (lookupPath (mkAltList (e :: es) (p :: ps)))
          = (es.map Episode.id).map (lookupPath (mkAltList es ps)) := by
        apply List.map_congr_left
        intro k hkmem
        have hne2 : e.id ≠ k := fun hcontra => hne (hcontra ▸ hkmem)
        simp [mkAltList, lookupPath, dget, hne2, List.zip]
      rw [hhead, htail, ih ps (by simpa using hlen) hnd']

/-! ## renameLoop lemmas -/

theorem renameLoop_ok (dry : Bool) (root : FsPath) (altd : List (Nat × AssignedEp))
    (items : List (Nat × Episode))
    (h : ∀ x ∈ items, ∃ ep pa, dget altd x.1 = some (ep, some pa)) :
    ∃ acts, renameLoop dry root altd items =
      .ok (items.map (fun x =>
        (lookupPath altd x.1, destName root x.2 (lookupPath altd x.1)))) acts := by
  induction items with
  | nil => exact ⟨[], rfl⟩
  | cons x rest ih =>
    obtain ⟨ep, pa, hx⟩ := h x (List.mem_cons_self x rest)
    obtain ⟨acts, hrest⟩ := ih (fun y hy => h y (List.mem_cons_of_mem x hy))
    have hl : lookupPath altd x.1 = pa := by simp [lookupPath, hx]
    obtain ⟨i, a⟩ := x
    refine ⟨(if dry then [] else
      [.rename pa (destName root a pa)]) ++ acts, ?_⟩
    simp only [renameLoop, hx, hrest]
    simp only [List.map_cons, hl]

theorem assignPaths_of_length_eq (el : List Episode) (pl : List FsPath)
    (h : pl.length = el.length) :
    assignPaths el pl = some (el.zip (pl.map some)) := by
  simp [assignPaths, h, Nat.sub_self]

/-- C1 helper: successful cross-referenced runs, in full generality. -/
theorem unmangleRun_ok_of_matching (dry ignore : Bool) (root : FsPath)
    (pl : List FsPath) (el aired : List Episode)
    (h1 : pl.length = el.length) (h2 : aired.length = el.length)
    (hna : (el.map Episode.id).Nodup) (hnr : (aired.map Episode.id).Nodup)
    (hsub : ∀ a ∈ aired, a.id ∈ el.map Episode.id) :
    ∃ acts, unmangleRun dry ignore root pl el aired =
      .ok ((aired.map (fun e => (e.id, e))).map (fun x =>
        (lookupPath (mkAltList el pl) x.1,
         destName root x.2 (lookupPath (mkAltList el pl) x.1)))) acts := by
  have hassign := assignPaths_of_length_eq el pl h1
  have hkeys := mkAltList_keys el pl h1
  have haltd : dictOf ((el.zip (pl.map some)).map (fun ae => (ae.1.id, ae)))
      = mkAltList el pl := by
    apply dictOf_eq_self
    rw [show ((el.zip (pl.map some)).map (fun ae => (ae.1.id, ae)))
        = mkAltList el pl from rfl, hkeys]
    exact hna
  have hairkeys : ((aired.map (fun e => (e.id, e))).map Prod.fst)
      = aired.map Episode.id := by
    rw [List.map_map]; rfl
  have haird : dictOf (aired.map (fun e => (e.id, e)))
      = aired.map (fun e => (e.id, e)) := by
    apply dictOf_eq_self
    rw [hairkeys]; exact hnr
  have hlenalt : (mkAltList el pl).length = el.length := by
    have := congrArg List.length hkeys
    simpa using this
  have hlenair : ((aired.map (fun e => (e.id, e))).length) = aired.length := by
    simp
  have hget : ∀ x ∈ aired.map (fun e => (e.id, e)),
      ∃ ep pa, dget (mkAltList el pl) x.1 = some (ep, some pa) := by
    intro x hx
    obtain ⟨a, ha, hax⟩ := List.mem_map.mp hx
    subst hax
    exact dget_mkAltList_mem el pl h1.symm a.id (hsub a ha)
  obtain ⟨acts, hloop⟩ :=
    renameLoop_ok dry root (mkAltList el pl) (aired.map (fun e => (e.id, e))) hget
  refine ⟨(if dry then [] else
      (seasonsOf (aired.map (fun e => (e.id, e)))).map
        (fun n => .mkdir (root ++ ["Season " ++ toString n]))) ++ acts, ?_⟩
  unfold unmangleRun
  rw [if_neg (by simp [h1])]
  rw [hassign]
  simp only
  rw [show dictOf (List.map (fun ae => (ae.1.id, ae)) (el.zip (List.map some pl)))
      = mkAltList el pl from haltd]
  rw [show dictOf (List.map (fun e => (e.id, e)) aired)
      = aired.map (fun e => (e.id, e)) from haird]
  rw [if_neg (by simp [hlenalt, hlenair, h2])]
  rw [hloop]
  rfl

/-- C1: for N local files, N alternate-order episodes and N aired-order
episodes whose ids all occur among the alternate-order ids (ids distinct
within each catalog, local paths distinct), the reconciler completes and
the produced plan has exactly N entries, its sources a permutation of the
local files with each local file the source of exactly one entry. -/
theorem reconcile_bijection_C1 (dry ignore : Bool) (root : FsPath)
    (pl : List FsPath) (el aired : List Episode)
    (h1 : pl.length = el.length) (h2 : aired.length = el.length)
    (hna : (el.map Episode.id).Nodup) (hnr : (aired.map Episode.id).Nodup)
    (hsub : ∀ a ∈ aired, a.id ∈ el.map Episode.id) (hpl : pl.Nodup) :
    ∃ plan acts, unmangleRun dry ignore root pl el aired = .ok plan acts ∧
      plan.length = pl.length ∧ (plan.map Prod.fst).Perm pl ∧
      (plan.map Prod.fst).Nodup := by
  obtain ⟨acts, hrun⟩ :=
    unmangleRun_ok_of_matching dry ignore root pl el aired h1 h2 hna hnr hsub
  refine ⟨_, acts, hrun, ?_, ?_, ?_⟩
  · simp [h1, h2]
  · have hsrc : ((aired.map (fun e => (e.id, e))).map (fun x =>
        (lookupPath (mkAltList el pl) x.1,
         destName root x.2 (lookupPath (mkAltList el pl) x.1)))).map Prod.fst
        = (aired.map Episode.id).map (lookupPath (mkAltList el pl)) := by
      simp only [List.map_map]; rfl
    rw [hsrc]
    have hperm : (aired.map Episode.id).Perm (el.map Episode.id) := by
      apply List.Subperm.perm_of_length_le
      · apply List.subperm_of_subset hnr
        intro k hk
        obtain ⟨a, ha, hak⟩ := List.mem_map.mp hk
        exact hak ▸ hsub a ha
      · simp [h2]
    have := hperm.map (lookupPath (mkAltList el pl))
    rw [map_lookupPath_mkAltList el pl h1.symm hna] at this
    exact this
  · have hsrc : ((aired.map (fun e => (e.id, e))).map (fun x =>
        (lookupPath (mkAltList el pl) x.1,
         destName root x.2 (lookupPath (mkAltList el pl) x.1)))).map Prod.fst
        = (aired.map Episode.id).map (lookupPath (mkAltList el pl)) := by
      simp only [List.map_map]; rfl
    rw [hsrc]
    have hperm : (aired.map Episode.id).Perm (el.map Episode.id) := by
      apply List.Subperm.perm_of_length_le
      · apply List.subperm_of_subset hnr
        intro k hk
        obtain ⟨a, ha, hak⟩ := List.mem_map.mp hk
        exact hak ▸ hsub a ha
      · simp [h2]
    have hmap := hperm.map (lookupPath (mkAltList el pl))
    rw [map_lookupPath_mkAltList el pl h1.symm hna] at hmap
    exact hmap.nodup_iff.mpr hpl

/-- Witness for C1: a two-file, two-episode reconciliation in which both
aired ids occur among the alternate ids. -/
theorem reconcile_bijection_C1_witness :
    ∃ plan acts, unmangleRun false false Ex.root [Ex.pfile 1, Ex.pfile 2]
        [Ex.epA, Ex.epC] [Ex.airedA, Ex.airedC] = .ok plan acts ∧
      plan.length = [Ex.pfile 1, Ex.pfile 2].length ∧
      (plan.map Prod.fst).Perm [Ex.pfile 1, Ex.pfile 2] ∧
      (plan.map Prod.fst).Nodup :=
  reconcile_bijection_C1 false false Ex.root [Ex.pfile 1, Ex.pfile 2]
    [Ex.epA, Ex.epC] [Ex.airedA, Ex.airedC]
    (by decide) (by decide) (by decide) (by decide) (by decide) (by decide)

/-- C5: when the local-file count and the alternate-order episode count
differ and the ignore-mismatch override is not set, the run returns at the
count check: no plan is computed, no file is assigned and no filesystem
mutation is performed. -/
theorem count_mismatch_fails_fast_C5 (dry : Bool) (root : FsPath)
    (pl : List FsPath) (el aired : List Episode)
    (h : pl.length ≠ el.length) :
    unmangleRun dry false root pl el aired = .mismatch ∧
      planOf (unmangleRun dry false root pl el aired) = none ∧
      actionsOf (unmangleRun dry false root pl el aired) = [] := by
  have hm : unmangleRun dry false root pl el aired = .mismatch := by
    unfold unmangleRun
    rw [if_pos (by simp [h])]
  exact ⟨hm, by rw [hm]; rfl, by rw [hm]; rfl⟩

/-- Witness for C5: 5 local files against 4 alternate-order episodes. -/
theorem count_mismatch_fails_fast_C5_witness :
    unmangleRun false false Ex.root
        [Ex.pfile 1, Ex.pfile 2, Ex.pfile 3, Ex.pfile 4, Ex.pfile 5]
        [Ex.epA, Ex.epB, Ex.epC, Ex.epD] [] = .mismatch ∧
      planOf (unmangleRun false false Ex.root
        [Ex.pfile 1, Ex.pfile 2, Ex.pfile 3, Ex.pfile 4, Ex.pfile 5]
        [Ex.epA, Ex.epB, Ex.epC, Ex.epD] []) = none ∧
      actionsOf (unmangleRun false false Ex.root
        [Ex.pfile 1, Ex.pfile 2, Ex.pfile 3, Ex.pfile 4, Ex.pfile 5]
        [Ex.epA, Ex.epB, Ex.epC, Ex.epD] []) = [] :=
  count_mismatch_fails_fast_C5 false Ex.root
    [Ex.pfile 1, Ex.pfile 2, Ex.pfile 3, Ex.pfile 4, Ex.pfile 5]
    [Ex.epA, Ex.epB, Ex.epC, Ex.epD] [] (by decide)

/-- C3: with the ignore-mismatch override set and more local files than
alternate-order episodes, the positional assignment loop indexes past the
end of the episode list — the run crashes with an IndexError instead of
stopping at the shorter sequence. -/
theorem lenient_overflow_crashes_C3 (dry : Bool) (root : FsPath)
    (pl : List FsPath) (el aired : List Episode)
    (h : el.length < pl.length) :
    unmangleRun dry true root pl el aired = .crash [] := by
  unfold unmangleRun
  rw [if_neg (by simp)]
  have ha : assignPaths el pl = none := by simp [assignPaths, h]
  rw [ha]

/-- Witness for C3: 2 local files, 1 alternate-order episode, `-i` set. -/
theorem lenient_overflow_crashes_C3_witness :
    unmangleRun false true Ex.root [Ex.pfile 1, Ex.pfile 2] [Ex.epA] []
      = .crash [] :=
  lenient_overflow_crashes_C3 false Ex.root [Ex.pfile 1, Ex.pfile 2]
    [Ex.epA] [] (by decide)

/-- The dry and non-dry rename loops compute the same plan, and the dry
loop performs no action. -/
theorem renameLoop_dry_cases (dry : Bool) (root : FsPath)
    (altd : List (Nat × AssignedEp)) (items : List (Nat × Episode)) :
    (∃ plan acts, renameLoop true root altd items = .ok plan [] ∧
       renameLoop dry root altd items = .ok plan acts) ∨
    (renameLoop true root altd items = .crash [] ∧
       ∃ acts, renameLoop dry root altd items = .crash acts) := by
  induction items with
  | nil => exact .inl ⟨[], [], rfl, rfl⟩
  | cons x rest ih =>
    obtain ⟨i, a⟩ := x
    cases hd : dget altd i with
    | none => simpa [renameLoop, hd] using ih
    | some v =>
      obtain ⟨ep, po⟩ := v
      cases po with
      | none =>
        exact .inr ⟨by simp [renameLoop, hd], [], by simp [renameLoop, hd]⟩
      | some p =>
        rcases ih with ⟨plan, acts, h1, h2⟩ | ⟨h1, acts, h2⟩
        · refine .inl ⟨(p, destName root a p) :: plan,
            (if dry then [] else [.rename p (destName root a p)]) ++ acts,
            ?_, ?_⟩
          · simp [renameLoop, hd, h1]
          · simp [renameLoop, hd, h2]
        · refine .inr ⟨?_, (if dry then [] else
              [.rename p (destName root a p)]) ++ acts, ?_⟩
          · simp [renameLoop, hd, h1]
          · simp [renameLoop, hd, h2]

/-- C7: for every input, the dry run computes exactly the same plan as the
non-dry run, and performs zero filesystem mutations — no rename and no
Season-directory creation. -/
theorem dry_run_pure_C7 (ignore : Bool) (root : FsPath)
    (pl : List FsPath) (el aired : List Episode) :
    planOf (unmangleRun true ignore root pl el aired)
      = planOf (unmangleRun false ignore root pl el aired) ∧
    actionsOf (unmangleRun true ignore root pl el aired) = [] := by
  unfold unmangleRun
  by_cases hc1 : ¬(pl.length = el.length) ∧ ¬ignore
  · rw [if_pos hc1, if_pos hc1]
    exact ⟨rfl, rfl⟩
  · rw [if_neg hc1, if_neg hc1]
    cases hassign : assignPaths el pl with
    | none => exact ⟨rfl, rfl⟩
    | some ael =>
      simp only
      by_cases hc2 : ¬((dictOf (aired.map (fun e => (e.id, e)))).length
          = (dictOf (ael.map (fun ae => (ae.1.id, ae)))).length) ∧ ¬ignore
      · rw [if_pos hc2, if_pos hc2]
        exact ⟨rfl, rfl⟩
      · rw [if_neg hc2, if_neg hc2]
        rcases renameLoop_dry_cases false root
            (dictOf (ael.map (fun ae => (ae.1.id, ae))))
            (dictOf (aired.map (fun e => (e.id, e)))) with
          ⟨plan, acts, h1, h2⟩ | ⟨h1, acts, h2⟩
        · rw [h1, h2]
          exact ⟨rfl, rfl⟩
        · rw [h1, h2]
          exact ⟨rfl, rfl⟩

/-- C9: every episode record produced by the episode-listing operation has
a non-zero season number, for every raw catalog returned by the remote
service and hence for every ordering scheme. -/
theorem season_zero_excluded_C9 (raw : List RawEpisode) :
    ∀ ep ∈ episodes_of raw, ep.season_number ≠ 0 := by
  intro ep hep
  obtain ⟨r, hr, hre⟩ := List.mem_map.mp hep
  have hne := (List.mem_filter.mp hr).2
  subst hre
  simpa using hne

/-- Witness for C9: a catalog holding one regular episode and one
season-0 special; the regular episode it returns has non-zero season. -/
theorem season_zero_excluded_C9_witness :
    (⟨10, "A", 1, 0, 1⟩ : Episode).season_number ≠ 0 :=
  season_zero_excluded_C9 [⟨10, "A", 1, 0, 1⟩, ⟨11, "Special", 1, 0, 0⟩]
    ⟨10, "A", 1, 0, 1⟩ (by decide)

/-- C6: in a multipart rename, the episode label is `e{n:02}` when exactly
one aired number `n` is mapped to the group, and `e{min:02}-e{max:02}`
over the minimum and maximum of the mapped numbers when more than one is. -/
theorem multipart_label_C6 :
    (∀ (g : EpisodeGroup) (n : Nat), g.mapped_eps = [n] →
      groupNewName g = some (pparent g.p ++
        [pname (pparent (pparent g.p)) ++ " - s" ++ pad2 g.group_season
          ++ "e" ++ pad2 n ++ psuffix g.p])) ∧
    (∀ g : EpisodeGroup, 1 < g.mapped_eps.length →
      ∃ m M, m ∈ g.mapped_eps ∧ M ∈ g.mapped_eps ∧
        (∀ y ∈ g.mapped_eps, m ≤ y ∧ y ≤ M) ∧
        groupNewName g = some (pparent g.p ++
          [pname (pparent (pparent g.p)) ++ " - s" ++ pad2 g.group_season
            ++ "e" ++ pad2 m ++ "-e" ++ pad2 M ++ psuffix g.p])) := by
  constructor
  · intro g n h
    simp [groupNewName, groupEps, h]
  · intro g hlen
    rcases hme : g.mapped_eps with _ | ⟨x, xs⟩
    · rw [hme] at hlen; simp at hlen
    · rw [hme] at hlen
      have hxs : xs ≠ [] := by
        intro hx; rw [hx] at hlen; simp at hlen
      refine ⟨xs.foldl Nat.min x, xs.foldl Nat.max x, ?_, ?_, ?_, ?_⟩
      · have hmin : (x :: xs).min? = some (xs.foldl Nat.min x) := rfl
        exact hme ▸ (List.min?_eq_some_iff'.mp hmin).1
      · have hmax : (x :: xs).max? = some (xs.foldl Nat.max x) := rfl
        exact hme ▸ (List.max?_eq_some_iff'.mp hmax).1
      · intro y hy
        have hmin : (x :: xs).min? = some (xs.foldl Nat.min x) := rfl
        have hmax : (x :: xs).max? = some (xs.foldl Nat.max x) := rfl
        exact ⟨(List.min?_eq_some_iff'.mp hmin).2 y hy,
               (List.max?_eq_some_iff'.mp hmax).2 y hy⟩
      · simp [groupNewName, groupEps, hme, hxs, String.append_assoc]

/-- Witness for C6: the singleton group `{7}` yields label `e07` and the
group `{3, 4}` yields label `e03-e04`. -/
theorem multipart_label_C6_witness :
    (groupNewName ⟨Ex.fX, 1, [7]⟩ = some (pparent Ex.fX ++
      [pname (pparent (pparent Ex.fX)) ++ " - s" ++ pad2 1
        ++ "e" ++ pad2 7 ++ psuffix Ex.fX])) ∧
    ∃ m M, m ∈ ([3, 4] : List Nat) ∧ M ∈ ([3, 4] : List Nat) ∧
      (∀ y ∈ ([3, 4] : List Nat), m ≤ y ∧ y ≤ M) ∧
      groupNewName ⟨Ex.fY, 1, [3, 4]⟩ = some (pparent Ex.fY ++
        [pname (pparent (pparent Ex.fY)) ++ " - s" ++ pad2 1
          ++ "e" ++ pad2 m ++ "-e" ++ pad2 M ++ psuffix Ex.fY]) :=
  ⟨multipart_label_C6.1 ⟨Ex.fX, 1, [7]⟩ 7 rfl,
   multipart_label_C6.2 ⟨Ex.fY, 1, [3, 4]⟩ (by decide)⟩

/-! ## Plan destination shape (C4) -/

theorem mem_dinsert {α : Type} (d : List (Nat × α)) (k : Nat) (v : α)
    (x : Nat × α) (h : x ∈ dinsert d k v) : x ∈ d ∨ x = (k, v) := by
  induction d with
  | nil => simpa [dinsert] using h
  | cons y rest ih =>
    obtain ⟨k', v'⟩ := y
    simp only [dinsert] at h
    split at h
    · rcases List.mem_cons.mp h with h2 | h2
      · exact .inr h2
      · exact .inl (List.mem_cons_of_mem _ h2)
    · rcases List.mem_cons.mp h with h2 | h2
      · exact .inl (by simp [h2])
      · rcases ih h2 with h3 | h3
        · exact .inl (List.mem_cons_of_mem _ h3)
        · exact .inr h3

theorem mem_foldl_dinsert {α : Type} (l : List (Nat × α)) (x : Nat × α) :
    ∀ acc, x ∈ l.foldl (fun d p => dinsert d p.1 p.2) acc → x ∈ acc ∨ x ∈ l := by
  induction l with
  | nil => intro acc h; exact .inl h
  | cons y rest ih =>
    intro acc h
    rw [List.foldl_cons] at h
    rcases ih _ h with h2 | h2
    · rcases mem_dinsert acc y.1 y.2 x h2 with h3 | h3
      · exact .inl h3
      · exact .inr (by simp [h3])
    · exact .inr (List.mem_cons_of_mem _ h2)

theorem mem_dictOf {α : Type} (l : List (Nat × α)) (x : Nat × α)
    (h : x ∈ dictOf l) : x ∈ l := by
  rcases mem_foldl_dinsert l x [] h with h2 | h2
  · simp at h2
  · exact h2

theorem renameLoop_mem (dry : Bool) (root : FsPath)
    (altd : List (Nat × AssignedEp)) :
    ∀ (items : List (Nat × Episode)) (plan : List (FsPath × FsPath))
      (acts : List FsAction),
      renameLoop dry root altd items = .ok plan acts →
      ∀ sd ∈ plan, ∃ ia ∈ items, sd.2 = destName root ia.2 sd.1 := by
  intro items
  induction items with
  | nil =>
    intro plan acts h sd hsd
    simp only [renameLoop, RunResult.ok.injEq] at h
    rw [← h.1] at hsd
    simp at hsd
  | cons x rest ih =>
    intro plan acts h sd hsd
    obtain ⟨i, a⟩ := x
    cases hd : dget altd i with
    | none =>
      rw [show renameLoop dry root altd ((i, a) :: rest)
          = renameLoop dry root altd rest by simp [renameLoop, hd]] at h
      obtain ⟨ia, hia, hdest⟩ := ih plan acts h sd hsd
      exact ⟨ia, List.mem_cons_of_mem _ hia, hdest⟩
    | some v =>
      obtain ⟨ep, po⟩ := v
      cases po with
      | none => simp [renameLoop, hd] at h
      | some p =>
        cases hr : renameLoop dry root altd rest with
        | mismatch => simp [renameLoop, hd, hr] at h
        | crash acts2 => simp [renameLoop, hd, hr] at h
        | ok plan2 acts2 =>
          simp only [renameLoop, hd, hr, RunResult.ok.injEq] at h
          rw [← h.1] at hsd
          rcases List.mem_cons.mp hsd with hhead | htail
          · refine ⟨(i, a), List.mem_cons_self _ _, ?_⟩
            rw [hhead]
          · obtain ⟨ia, hia, hdest⟩ := ih plan2 acts2 hr sd htail
            exact ⟨ia, List.mem_cons_of_mem _ hia, hdest⟩

/-- C4 (amended): every destination the reconciler computes for a found
aired episode is the file name
`s{season:02}e{episode:02} --- {original_filename}` — with no root-dir
label prefix — under the subdirectory `Season {season_number}` of the
root directory. -/
theorem dest_under_season_dir_C4 (dry ignore : Bool) (root : FsPath)
    (pl : List FsPath) (el aired : List Episode)
    (plan : List (FsPath × FsPath)) (acts : List FsAction)
    (hrun : unmangleRun dry ignore root pl el aired = .ok plan acts) :
    ∀ sd ∈ plan, ∃ a ∈ aired, sd.2 = root ++
      ["Season " ++ toString a.season_number,
       "s" ++ pad2 a.season_number ++ "e" ++ pad2 a.episode_number
         ++ " --- " ++ pname sd.1] := by
  unfold unmangleRun at hrun
  by_cases hc1 : ¬(pl.length = el.length) ∧ ¬ignore
  · rw [if_pos hc1] at hrun; exact absurd hrun (by simp)
  · rw [if_neg hc1] at hrun
    cases hassign : assignPaths el pl with
    | none => simp [hassign] at hrun
    | some ael =>
      simp only [hassign] at hrun
      by_cases hc2 : ¬((dictOf (aired.map (fun e => (e.id, e)))).length
          = (dictOf (ael.map (fun ae => (ae.1.id, ae)))).length) ∧ ¬ignore
      · rw [if_pos hc2] at hrun; exact absurd hrun (by simp)
      · rw [if_neg hc2] at hrun
        cases hloop : renameLoop dry root
            (dictOf (ael.map (fun ae => (ae.1.id, ae))))
            (dictOf (aired.map (fun e => (e.id, e)))) with
        | mismatch => rw [hloop] at hrun; simp [withActs] at hrun
        | crash acts2 => rw [hloop] at hrun; simp [withActs] at hrun
        | ok plan2 acts2 =>
          rw [hloop] at hrun
          simp only [withActs, RunResult.ok.injEq] at hrun
          intro sd hsd
          obtain ⟨ia, hia, hdest⟩ := renameLoop_mem dry root _ _ plan2 acts2
            hloop sd (hrun.1 ▸ hsd)
          obtain ⟨a, ha, hae⟩ := List.mem_map.mp (mem_dictOf _ _ hia)
          refine ⟨a, ha, ?_⟩
          have hia2 : ia.2 = a := by rw [← hae]
          rw [hdest, hia2]
          rfl

/-- Counterexample for C4: reconciling the single file `x1.mkv` under the
root `MyShow` yields the destination file name `s01e01 --- x1.mkv`, not
the claimed `MyShow - s01e01 --- x1.mkv`. -/
theorem dest_under_season_dir_C4_counterexample :
    planOf (unmangleRun true false Ex.root [Ex.pfile 1] [Ex.epA] [Ex.airedA])
      = some [(Ex.pfile 1, ["MyShow", "Season 1", "s01e01 --- x1.mkv"])] ∧
    (["MyShow", "Season 1", "s01e01 --- x1.mkv"] : FsPath)
      ≠ ["MyShow", "Season 1", "MyShow - s01e01 --- x1.mkv"] :=
  ⟨by decide, by decide⟩

/-- Witness for C4 (amended), at a concrete one-file run and its sole
plan entry. -/
theorem dest_under_season_dir_C4_witness :
    ∃ a ∈ [Ex.airedA], (["MyShow", "Season 1", "s01e01 --- x1.mkv"] : FsPath)
      = Ex.root ++ ["Season " ++ toString a.season_number,
         "s" ++ pad2 a.season_number ++ "e" ++ pad2 a.episode_number
           ++ " --- " ++ pname (Ex.pfile 1)] :=
  dest_under_season_dir_C4 true false Ex.root [Ex.pfile 1] [Ex.epA] [Ex.airedA]
    [(Ex.pfile 1, ["MyShow", "Season 1", "s01e01 --- x1.mkv"])] [] (by decide)
    (Ex.pfile 1, ["MyShow", "Season 1", "s01e01 --- x1.mkv"]) (by decide)

/-! ## Multipart grouping (C2, C10) -/

/-- The grouping loop factors through the spec-side decomposition: tag
every alternate-order entry with its file index, advancing exactly at a
pair change, then accumulate. -/
theorem multipartLoop_eq_applyAssigned (pl : List FsPath)
    (airedd : List (Nat × Episode)) (ep sn idx : Nat)
    (acc : List EpisodeGroup) (alt : List Episode) :
    multipartLoop pl airedd ep sn idx acc alt
      = applyAssigned pl airedd acc (assignIndices (ep, sn) idx alt) := by
  induction alt generalizing ep sn idx acc with
  | nil => rfl
  | cons e rest ih =>
    by_cases hP : e.episode_number ≠ ep ∨ e.season_number ≠ sn
    · have hpair : ¬((e.episode_number, e.season_number) = (ep, sn)) := by
        intro hc
        rcases hP with h | h
        · exact h (congrArg Prod.fst hc)
        · exact h (congrArg Prod.snd hc)
      simp only [multipartLoop, assignIndices, decide_eq_true_eq]
      rw [if_pos hP, if_pos hP, if_pos hP, if_neg hpair]
      cases hd : dget airedd e.id with
      | none => simp only [applyAssigned, hd]
      | some ae =>
        cases hc : pl[idx + 1]? with
        | none => simp only [applyAssigned, hd, hc]
        | some curr =>
          simp only [applyAssigned, hd, hc]
          exact ih _ _ _ _
    · push_neg at hP
      obtain ⟨hep, hsn⟩ := hP
      subst hep
      subst hsn
      have hni : ¬(e.episode_number ≠ e.episode_number
          ∨ e.season_number ≠ e.season_number) := by simp
      simp only [multipartLoop, assignIndices, decide_eq_true_eq, if_true]
      simp only [if_neg hni]
      cases hd : dget airedd e.id with
      | none => simp only [applyAssigned, hd]
      | some ae =>
        cases hc : pl[idx]? with
        | none => simp only [applyAssigned, hd, hc]
        | some curr =>
          simp only [applyAssigned, hd, hc]
          exact ih _ _ _ _

/-- C2: the multipart grouper advances to the next local file exactly when
the (episode_number, season_number) pair of the current alternate-order
entry differs from the previous one: the grouping loop coincides with the
spec-side decomposition that first tags each entry with the file index of
`assignIndices` and then accumulates; and on the example
`[(s1e1,A), (s1e1,B), (s1e2,C)]` with aired numbers `A=1, B=2, C=3` it
assigns `fileX` the aired numbers `[1, 2]` (rename label `s01e01-e02`) and
`fileY` the aired number `[3]` (rename label `s01e03`). -/
theorem multipart_grouping_C2 :
    (∀ (pl : List FsPath) (airedd : List (Nat × Episode)) (ep sn idx : Nat)
       (acc : List EpisodeGroup) (alt : List Episode),
       multipartLoop pl airedd ep sn idx acc alt
         = applyAssigned pl airedd acc (assignIndices (ep, sn) idx alt)) ∧
    multipartGroups [Ex.fX, Ex.fY] [Ex.airedA, Ex.airedB, Ex.airedC]
        [Ex.epA, Ex.epB, Ex.epC]
      = some [⟨Ex.fX, 1, [1, 2]⟩, ⟨Ex.fY, 1, [3]⟩] ∧
    groupNewName ⟨Ex.fX, 1, [1, 2]⟩
      = some ["show", "Season 1", "show - s01e01-e02.mkv"] ∧
    groupNewName ⟨Ex.fY, 1, [3]⟩
      = some ["show", "Season 1", "show - s01e03.mkv"] :=
  ⟨fun pl airedd ep sn idx acc alt =>
      multipartLoop_eq_applyAssigned pl airedd ep sn idx acc alt,
   by decide, by decide, by decide⟩

theorem groupAdd_paths (acc : List EpisodeGroup) (curr : FsPath) (sn n : Nat) :
    ∀ g ∈ groupAdd acc curr sn n,
      g.p ∈ acc.map EpisodeGroup.p ∨ g.p = curr := by
  induction acc with
  | nil =>
    intro g hg
    simp only [groupAdd, List.mem_singleton] at hg
    exact .inr (by rw [hg])
  | cons a rest ih =>
    intro g hg
    simp only [groupAdd] at hg
    split at hg
    · rcases List.mem_cons.mp hg with h | h
      · left; rw [h]; simp
      · left
        simp only [List.map_cons, List.mem_cons]
        exact .inr (List.mem_map_of_mem EpisodeGroup.p h)
    · rcases List.mem_cons.mp hg with h | h
      · left; rw [h]; simp
      · rcases ih g h with h2 | h2
        · left
          simp only [List.map_cons, List.mem_cons]
          exact .inr h2
        · exact .inr h2

theorem assignIndices_ge (p : Nat × Nat) (i : Nat) (alt : List Episode) :
    ∀ je ∈ assignIndices p i alt, i ≤ je.1 := by
  induction alt generalizing p i with
  | nil => simp [assignIndices]
  | cons e rest ih =>
    intro je hje
    simp only [assignIndices] at hje
    have hi : i ≤ (if (e.episode_number, e.season_number) = p then i else i + 1) := by
      split <;> omega
    rcases List.mem_cons.mp hje with h | h
    · rw [h]; exact hi
    · exact hi.trans (ih _ _ je h)

theorem applyAssigned_paths (pl : List FsPath) (airedd : List (Nat × Episode)) :
    ∀ (tagged : List (Nat × Episode)) (acc gs : List EpisodeGroup),
      applyAssigned pl airedd acc tagged = some gs →
      ∀ g ∈ gs, g.p ∈ acc.map EpisodeGroup.p ∨
        ∃ j, (∃ e, (j, e) ∈ tagged) ∧ pl[j]? = some g.p := by
  intro tagged
  induction tagged with
  | nil =>
    intro acc gs h g hg
    simp only [applyAssigned, Option.some.injEq] at h
    exact .inl (List.mem_map_of_mem EpisodeGroup.p (h ▸ hg))
  | cons je rest ih =>
    intro acc gs h g hg
    obtain ⟨j, e⟩ := je
    simp only [applyAssigned] at h
    cases hd : dget airedd e.id with
    | none => rw [hd] at h; exact absurd h (by simp)
    | some ae =>
      rw [hd] at h
      cases hc : pl[j]? with
      | none => rw [hc] at h; exact absurd h (by simp)
      | some curr =>
        rw [hc] at h
        rcases ih _ _ h g hg with hacc | ⟨j', hj', hpj⟩
        · obtain ⟨g', hg', hgp⟩ := List.mem_map.mp hacc
          rcases groupAdd_paths acc curr e.season_number ae.episode_number g' hg'
            with h2 | h2
          · exact .inl (hgp ▸ h2)
          · exact .inr ⟨j, ⟨e, List.mem_cons_self _ _⟩, by rw [hc, ← hgp, h2]⟩
        · exact .inr ⟨j', ⟨hj'.choose, List.mem_cons_of_mem _ hj'.choose_spec⟩, hpj⟩

theorem applyAssigned_bound (pl : List FsPath) (airedd : List (Nat × Episode)) :
    ∀ (tagged : List (Nat × Episode)) (acc gs : List EpisodeGroup),
      applyAssigned pl airedd acc tagged = some gs →
      ∀ je ∈ tagged, je.1 < pl.length := by
  intro tagged
  induction tagged with
  | nil => intro acc gs _ je hje; simp at hje
  | cons je0 rest ih =>
    intro acc gs h je hje
    obtain ⟨j, e⟩ := je0
    simp only [applyAssigned] at h
    cases hd : dget airedd e.id with
    | none => rw [hd] at h; exact absurd h (by simp)
    | some ae =>
      rw [hd] at h
      cases hc : pl[j]? with
      | none => rw [hc] at h; exact absurd h (by simp)
      | some curr =>
        rw [hc] at h
        rcases List.mem_cons.mp hje with h2 | h2
        · rw [h2]
          exact (List.getElem?_eq_some_iff.mp hc).1
        · exact ih _ _ h je h2

theorem assignIndices_last_index (p : Nat × Nat) (i : Nat) (e : Episode)
    (alt : List Episode) :
    ∃ e', (i + pairChanges p (e :: alt), e') ∈ assignIndices p i (e :: alt) := by
  induction alt generalizing p i e with
  | nil =>
    by_cases hp : (e.episode_number, e.season_number) = p
    · exact ⟨e, by simp [assignIndices, pairChanges, hp]⟩
    · refine ⟨e, ?_⟩
      simp only [assignIndices, pairChanges, if_neg hp, if_pos hp]
      simp [hp]
  | cons e2 rest ih =>
    obtain ⟨e', he'⟩ := ih (e.episode_number, e.season_number)
      (if (e.episode_number, e.season_number) = p then i else i + 1) e2
    refine ⟨e', ?_⟩
    have harith : i + pairChanges p (e :: e2 :: rest)
        = (if (e.episode_number, e.season_number) = p then i else i + 1)
          + pairChanges (e.episode_number, e.season_number) (e2 :: rest) := by
      by_cases hp : (e.episode_number, e.season_number) = p
      · simp only [pairChanges, if_neg (not_not_intro hp), if_pos hp]
        omega
      · simp only [pairChanges, if_pos hp, if_neg hp]
        omega
    rw [harith]
    exact List.mem_cons_of_mem _ he'

theorem getElem?_mem_drop_one {α : Type} (pl : List α) (j : Nat) (x : α)
    (h1 : 1 ≤ j) (h : pl[j]? = some x) : x ∈ pl.drop 1 := by
  cases pl with
  | nil => simp at h
  | cons f rest =>
    obtain ⟨j', rfl⟩ : ∃ j', j = j' + 1 := ⟨j - 1, by omega⟩
    simp only [List.getElem?_cons_succ] at h
    simpa using List.getElem?_mem h

theorem multipartGroups_drop_one (pl : List FsPath) (aired : List Episode)
    (e : Episode) (alt : List Episode) (gs : List EpisodeGroup)
    (hpair : ¬((e.episode_number, e.season_number) = (1, 1)))
    (hrun : multipartGroups pl aired (e :: alt) = some gs) :
    ∀ g ∈ gs, g.p ∈ pl.drop 1 := by
  rw [multipartGroups, multipartLoop_eq_applyAssigned] at hrun
  rw [show assignIndices (1, 1) 0 (e :: alt)
      = (1, e) :: assignIndices (e.episode_number, e.season_number) 1 alt by
    simp only [assignIndices, if_neg hpair]] at hrun
  intro g hg
  rcases applyAssigned_paths pl _ _ [] gs hrun g hg with habs | ⟨j, ⟨e', hje⟩, hpj⟩
  · simp at habs
  · have h1 : 1 ≤ j := by
      rcases List.mem_cons.mp hje with h | h
      · have := congrArg Prod.fst h
        simp at this
        omega
      · exact assignIndices_ge _ _ _ _ h
    exact getElem?_mem_drop_one pl j g.p h1 hpj

/-- C10: the multipart grouper starts its change-detection state at
(episode 1, season 1) with file index 0 before reading any entry; hence
when the first alternate-order entry's pair is not (1, 1) the file index
is advanced before any assignment — every produced group's file lies
beyond the first local file, which is never assigned to any group — and
when the total number of advances reaches the number of local files, the
file-list indexing goes out of range and the run fails. -/
theorem multipart_init_state_C10 :
    (∀ (pl : List FsPath) (aired alt : List Episode),
      multipartGroups pl aired alt
        = multipartLoop pl (dictOf (aired.map (fun e => (e.id, e)))) 1 1 0 [] alt) ∧
    (∀ (pl : List FsPath) (aired : List Episode) (e : Episode)
       (alt : List Episode) (gs : List EpisodeGroup),
      ¬(e.episode_number = 1 ∧ e.season_number = 1) →
      multipartGroups pl aired (e :: alt) = some gs →
      ∀ g ∈ gs, g.p ∈ pl.drop 1) ∧
    (∀ (pl' : List FsPath) (f : FsPath) (aired : List Episode) (e : Episode)
       (alt : List Episode) (gs : List EpisodeGroup),
      ¬(e.episode_number = 1 ∧ e.season_number = 1) →
      (f :: pl').Nodup →
      multipartGroups (f :: pl') aired (e :: alt) = some gs →
      ∀ g ∈ gs, g.p ≠ f) ∧
    (∀ (pl : List FsPath) (aired : List Episode) (e : Episode)
       (alt : List Episode),
      pl.length ≤ pairChanges (1, 1) (e :: alt) →
      multipartGroups pl aired (e :: alt) = none) := by
  refine ⟨fun pl aired alt => rfl, ?_, ?_, ?_⟩
  · intro pl aired e alt gs hne hrun
    exact multipartGroups_drop_one pl aired e alt gs
      (by simpa [Prod.mk.injEq] using hne) hrun
  · intro pl' f aired e alt gs hne hnd hrun g hg
    have hdrop := multipartGroups_drop_one (f :: pl') aired e alt gs
      (by simpa [Prod.mk.injEq] using hne) hrun g hg
    have hmem : g.p ∈ pl' := by simpa using hdrop
    intro hgf
    exact (List.nodup_cons.mp hnd).1 (hgf ▸ hmem)
  · intro pl aired e alt hlen
    cases hmg : multipartGroups pl aired (e :: alt) with
    | none => rfl
    | some gs =>
      exfalso
      have hrun := hmg
      rw [multipartGroups, multipartLoop_eq_applyAssigned] at hrun
      obtain ⟨e', he'⟩ := assignIndices_last_index (1, 1) 0 e alt
      have hb := applyAssigned_bound pl _ _ [] gs hrun
        (0 + pairChanges (1, 1) (e :: alt), e') he'
      simp only [Nat.zero_add] at hb
      omega

/-- Witness for C10: with first alternate pair (s1e2) the sole produced
group maps the second file, never the first; and with one local file and
two advances the grouping run fails. -/
theorem multipart_init_state_C10_witness :
    (∀ g ∈ ([⟨Ex.fY, 1, [3]⟩] : List EpisodeGroup),
       EpisodeGroup.p g ∈ [Ex.fX, Ex.fY].drop 1) ∧
    (∀ g ∈ ([⟨Ex.fY, 1, [3]⟩] : List EpisodeGroup),
       EpisodeGroup.p g ≠ Ex.fX) ∧
    multipartGroups [Ex.fX] [Ex.airedC] [Ex.epC, Ex.epD] = none :=
  ⟨multipart_init_state_C10.2.1 [Ex.fX, Ex.fY] [Ex.airedC] Ex.epC []
      [⟨Ex.fY, 1, [3]⟩] (by decide) (by decide),
   multipart_init_state_C10.2.2.1 [Ex.fY] Ex.fX [Ex.airedC] Ex.epC []
      [⟨Ex.fY, 1, [3]⟩] (by decide) (by decide) (by decide),
   multipart_init_state_C10.2.2.2 [Ex.fX] [Ex.airedC] Ex.epC [Ex.epD] (by decide)⟩

/-! ## Scanner sorting (C8) -/

theorem oinsert_eq_orderedInsert (x : FsPath) (l : List FsPath) :
    oinsert lexPathCmp x l
      = some (List.orderedInsert (fun a b => pstr a ≤ pstr b) x l) := by
  induction l with
  | nil => rfl
  | cons y ys ih =>
    simp only [oinsert, List.orderedInsert, lexPathCmp]
    rcases hcmp : compare (pstr x) (pstr y) with _ | _ | _
    · rw [if_pos (le_of_lt (compare_lt_iff_lt.mp hcmp))]
    · rw [if_pos (le_of_eq (compare_eq_iff_eq.mp hcmp))]
    · rw [if_neg (not_le_of_gt (compare_gt_iff_gt.mp hcmp))]
      rw [show oinsert lexPathCmp x ys
          = some (List.orderedInsert (fun a b => pstr a ≤ pstr b) x ys) from ih]
      rfl

theorem osort_lex (l : List FsPath) :
    osort lexPathCmp l
      = some (List.insertionSort (fun a b => pstr a ≤ pstr b) l) := by
  induction l with
  | nil => rfl
  | cons x xs ih =>
    simp only [osort, ih, Option.some_bind, List.insertionSort]
    exact oinsert_eq_orderedInsert x (List.insertionSort _ xs)

theorem oinsert_perm {α : Type} (cmp : α → α → Option Ordering) (x : α) :
    ∀ (l r : List α), oinsert cmp x l = some r → r.Perm (x :: l) := by
  intro l
  induction l with
  | nil =>
    intro r h
    simp only [oinsert, Option.some.injEq] at h
    rw [← h]
  | cons y ys ih =>
    intro r h
    simp only [oinsert] at h
    cases hc : cmp x y with
    | none => rw [hc] at h; exact absurd h (by simp)
    | some o =>
      rw [hc] at h
      cases o with
      | gt =>
        simp only at h
        cases hrec : oinsert cmp x ys with
        | none => rw [hrec] at h; exact absurd h (by simp)
        | some r' =>
          rw [hrec] at h
          simp only [Option.map_some', Option.some.injEq] at h
          rw [← h]
          exact ((ih r' hrec).cons y).trans (List.Perm.swap x y ys)
      | lt =>
        simp only [Option.some.injEq] at h
        rw [← h]
      | eq =>
        simp only [Option.some.injEq] at h
        rw [← h]

theorem osort_perm {α : Type} (cmp : α → α → Option Ordering) :
    ∀ (l r : List α), osort cmp l = some r → r.Perm l := by
  intro l
  induction l with
  | nil =>
    intro r h
    simp only [osort, Option.some.injEq] at h
    rw [← h]
  | cons x xs ih =>
    intro r h
    simp only [osort] at h
    cases hs : osort cmp xs with
    | none => rw [hs] at h; exact absurd h (by simp)
    | some r' =>
      rw [hs] at h
      simp only [Option.some_bind] at h
      exact (oinsert_perm cmp x r' r h).trans ((ih r' hs).cons x)

/-- C8 (amended): `find_all_eps` sorts the kept files lexicographically by
rendered path by default (`lex_sort` defaults to True), producing a sorted
permutation of the filtered candidates, and applies the `natural_sort`
key only when `lex_sort = false` is requested. -/
theorem scanner_sort_default_C8 (files : List FsPath) (ext : Option String) :
    (∃ l, find_all_eps files = some l ∧
       l.Perm (files.filter (fun p => strLower (psuffix p) ∈ VIDEO_EXTS)) ∧
       l.Pairwise (fun a b => pstr a ≤ pstr b)) ∧
    find_all_eps files false ext
      = osort natPathCmp (files.filter (fun p => strLower (psuffix p) ∈
          (match ext with | some e => [e] | none => VIDEO_EXTS))) ∧
    (∀ l, osort natPathCmp (files.filter (fun p => strLower (psuffix p) ∈
          (match ext with | some e => [e] | none => VIDEO_EXTS))) = some l →
       l.Perm (files.filter (fun p => strLower (psuffix p) ∈
          (match ext with | some e => [e] | none => VIDEO_EXTS)))) := by
  refine ⟨?_, rfl, fun l h => osort_perm natPathCmp _ l h⟩
  refine ⟨List.insertionSort (fun a b => pstr a ≤ pstr b)
      (files.filter (fun p => strLower (psuffix p) ∈ VIDEO_EXTS)), ?_, ?_, ?_⟩
  · exact osort_lex _
  · exact List.perm_insertionSort _ _
  · haveI : IsTotal FsPath (fun a b => pstr a ≤ pstr b) :=
      ⟨fun a b => le_total (pstr a) (pstr b)⟩
    haveI : IsTrans FsPath (fun a b => pstr a ≤ pstr b) :=
      ⟨fun a b c hab hbc => le_trans hab hbc⟩
    exact List.sorted_insertionSort _ _

/-- Counterexample for C8: with its default arguments `find_all_eps`
returns the plain-lexicographic order (`Episode 10` before `Episode 2`);
the natural order, which the claim says is the default, is only produced
when `lex_sort = false` is passed, and differs. -/
theorem scanner_sort_default_C8_counterexample :
    find_all_eps [Ex.e10, Ex.e2] = some [Ex.e10, Ex.e2] ∧
    find_all_eps [Ex.e10, Ex.e2] false none = some [Ex.e2, Ex.e10] ∧
    ([Ex.e10, Ex.e2] : List FsPath) ≠ [Ex.e2, Ex.e10] :=
  ⟨by decide, by decide, by decide⟩

/-- Witness for C8 (amended): the natural-branch permutation fact at a
concrete input. -/
theorem scanner_sort_default_C8_witness :
    ([Ex.e2, Ex.e10] : List FsPath).Perm
      ([Ex.e10, Ex.e2].filter (fun p => strLower (psuffix p) ∈ VIDEO_EXTS)) :=
  (scanner_sort_default_C8 [Ex.e10, Ex.e2] none).2.2 [Ex.e2, Ex.e10] (by decide)

end TvRename

